import Mathlib

/-!
Verification development for the mesh construction and face-stitching core
of the Carve CSG library (`carve::mesh`: Vertex, Edge, Face, Mesh, MeshSet,
detail::FaceStitcher).

The C++ object graph is embedded shallowly: heap objects become records in
arenas (plain lists indexed by position), pointers become arena indices,
`NULL` becomes `none`.  Geometric payloads (coordinates, plane equations,
projection functions) are irrelevant to every claim treated here and are
omitted from the records; tag bits (class `tagable`, carve/tag.hpp, not in
src/) are modelled from the spec as a natural number that is 0 when
default-empty.
-/

namespace CarveMesh

/-- A vertex of the `vertex_storage` array.  Modelled from the spec: the
`tagable` base (carve/tag.hpp is not in src/) carries opaque tag bits,
default-empty (0) on construction.  Coordinates are not needed by any claim
and are omitted. -/
structure VertexRec where
  tag : Nat
deriving DecidableEq

/-- One half-edge (`carve::mesh::Edge<3>`): origin vertex index (`vert`),
owning face (`face`), ring neighbours (`prev`, `next`), twin (`rev`,
`none` = NULL) and the tag bits of the `tagable` base. -/
structure EdgeRec where
  vert : Nat
  face : Nat
  next : Nat
  prev : Nat
  rev : Option Nat
  tag : Nat
deriving DecidableEq

/-- One face (`carve::mesh::Face<3>`): a start edge of its circular ring,
`n_edges`, the owning mesh (`none` = NULL), the stitcher id and tag bits.
The geometric members (plane, project, unproject) are omitted. -/
structure FaceRec where
  edge : Nat
  n_edges : Nat
  mesh : Option Nat
  id : Nat
  tag : Nat
deriving DecidableEq

/-- One mesh (`carve::mesh::Mesh<3>`): face list, open and closed edge
lists, `is_negative`.  The `meshset` back-pointer is not needed by any
claim and is omitted. -/
structure MeshRec where
  faces : List Nat
  open_edges : List Nat
  closed_edges : List Nat
  is_negative : Bool
deriving DecidableEq

/-- The object graph owned by one `carve::mesh::MeshSet<3>`. -/
structure MeshSetRec where
  vertex_storage : List VertexRec
  edgeArena : List EdgeRec
  faceArena : List FaceRec
  meshes : List MeshRec
deriving DecidableEq

/-- Fallback edge record used for out-of-arena accesses (never reached on
well-formed data). -/
def dEdge : EdgeRec := { vert := 0, face := 0, next := 0, prev := 0, rev := none, tag := 0 }

/-- Fallback face record for out-of-arena accesses. -/
def dFace : FaceRec := { edge := 0, n_edges := 0, mesh := none, id := 0, tag := 0 }

/-- Fallback mesh record for out-of-range accesses. -/
def dMesh : MeshRec := { faces := [], open_edges := [], closed_edges := [], is_negative := false }

/-- Dereference an edge pointer in a meshset's edge arena. -/
def edgeAt (ms : MeshSetRec) (e : Nat) : EdgeRec := ms.edgeArena.getD e dEdge

/-- Dereference a face pointer in a meshset's face arena. -/
def faceAt (ms : MeshSetRec) (f : Nat) : FaceRec := ms.faceArena.getD f dFace

/-- The edge ids visited by the C++ idiom `e = start; do { ...; e = e->next; }
while (e != start)`, collected with fuel (the C++ loop would run forever on a
ring that never returns to `start`; on a proper circular ring the fuel
`arena.length + 1` is never exhausted). -/
def ringAux (arena : List EdgeRec) (start : Nat) : Nat → Nat → List Nat
  | 0, _ => []
  | fuel + 1, cur =>
    cur :: (if (arena.getD cur dEdge).next = start then []
            else ringAux arena start fuel (arena.getD cur dEdge).next)

/-- The list of edge ids of the circular ring starting at `start`. -/
def ringFrom (arena : List EdgeRec) (start : Nat) : List Nat :=
  ringAux arena start (arena.length + 1) start

/-- The arenas being populated while a `MeshSet` is cloned: the edges and
faces of the new object graph (ids are allocation order, matching the
`new` calls in `Face::clone`). -/
structure CloneSt where
  edges : List EdgeRec
  faces : List FaceRec
deriving DecidableEq

/-- `Face::clone(old_base, new_base, edge_map)` (mesh.hpp lines 496-518):
copies the face record through `Face(const Face &)` — which leaves `edge`
NULL, `mesh` NULL and, because the `tagable` base is absent from the
mem-initializer list, default-constructs the tag bits — then walks the
old ring, allocating one fresh edge per old edge (origin remapped through
`e->vert - old_base + new_base`, which is the identity on storage indices),
linking `prev`/`next` circularly in ring order and recording each pair in
`edge_map`.  The Edge constructor (mesh_impl.hpp, not in src/) leaves
`rev` NULL — modelled from the spec: the twin is "possibly absent" until
assigned — and default-constructs the tag bits. -/
def faceClone (ms : MeshSetRec) (fid : Nat) (st : CloneSt) (emap : List (Nat × Nat)) :
    CloneSt × List (Nat × Nat) :=
  let f := faceAt ms fid
  let rid := st.faces.length
  let ring := ringFrom ms.edgeArena f.edge
  let base := st.edges.length
  let m := ring.length
  let newEdges := (List.range m).map (fun k =>
    { vert := (ms.edgeArena.getD (ring.getD k 0) dEdge).vert
      face := rid
      next := base + ((k + 1) % m)
      prev := base + ((k + m - 1) % m)
      rev := none
      tag := 0 : EdgeRec })
  let newMap := (List.range m).map (fun k => (ring.getD k 0, base + k))
  (⟨st.edges ++ newEdges,
    st.faces ++ [{ edge := base, n_edges := f.n_edges, mesh := none, id := f.id, tag := 0 }]⟩,
   emap ++ newMap)

/-- Write a new `rev` field at edge id `i` in a clone arena. -/
def setRevAt (edges : List EdgeRec) (i : Nat) (r : Option Nat) : List EdgeRec :=
  edges.set i { edges.getD i dEdge with rev := r }

/-- `Mesh::clone(old_base, new_base)` (mesh.hpp lines 773-795): clones every
face through a mesh-local `edge_map`, then for each canonical closed edge
`closed_edges[i]` pushes its clone and assigns that clone's `rev` to
`edge_map[closed_edges[i]->rev]` — and assigns nothing else: the twin
clone's own `rev` field is never written.  `open_edges` are mapped through
the edge map.  The resulting lists are handed to the protected `Mesh`
constructor (mesh.hpp lines 726-739), which stores them unchanged; the
face back-pointers it assigns are set by the caller `msClone` below since
the new mesh's index is known there. -/
def meshClone (ms : MeshSetRec) (mrec : MeshRec) (st : CloneSt) : CloneSt × MeshRec :=
  let step := fun (acc : CloneSt × List (Nat × Nat)) (fid : Nat) =>
    faceClone ms fid acc.1 acc.2
  let stm := mrec.faces.foldl step (st, [])
  let st := stm.1
  let emap := stm.2
  let closedStep := fun (edges : List EdgeRec) (e : Nat) =>
    match List.lookup e emap with
    | none => edges
    | some r =>
      let target : Option Nat := (edgeAt ms e).rev.bind (fun er => List.lookup er emap)
      setRevAt edges r target
  let st : CloneSt := ⟨mrec.closed_edges.foldl closedStep st.edges, st.faces⟩
  let rClosed := mrec.closed_edges.map (fun e => (List.lookup e emap).getD 0)
  let rOpen := mrec.open_edges.map (fun e => (List.lookup e emap).getD 0)
  (st, { faces := (List.range mrec.faces.length).map (fun k => st.faces.length - mrec.faces.length + k),
         open_edges := rOpen, closed_edges := rClosed, is_negative := mrec.is_negative })

/-- The face back-pointer assignment `faces[i]->mesh = this` performed by the
protected `Mesh` constructor. -/
def setFaceMesh (faces : List FaceRec) (fids : List Nat) (mid : Nat) : List FaceRec :=
  fids.foldl (fun fs fid => fs.set fid { fs.getD fid dFace with mesh := some mid }) faces

/-- `MeshSet::clone()` (mesh.hpp lines 1007-1014): copies `vertex_storage`
(element-wise through the implicit `Vertex` copy constructor, which copies
the `tagable` base), clones each mesh with the storage-base remap, and
wraps the results in `MeshSet(r_vertex_storage, r_meshes)`. -/
def msClone (ms : MeshSetRec) : MeshSetRec :=
  let step := fun (acc : CloneSt × List MeshRec) (mrec : MeshRec) =>
    let res := meshClone ms mrec acc.1
    let st : CloneSt := ⟨res.1.edges, setFaceMesh res.1.faces res.2.faces acc.2.length⟩
    (st, acc.2 ++ [res.2])
  let built := ms.meshes.foldl step (⟨[], []⟩, [])
  { vertex_storage := ms.vertex_storage
    edgeArena := built.1.edges
    faceArena := built.1.faces
    meshes := built.2 }

/-- `Mesh::isClosed()` (mesh.hpp lines 760-762): `open_edges.size() == 0`. -/
def isClosed (m : MeshRec) : Bool := m.open_edges.length == 0

/-- Two triangles `(v0,v1,v2)` and `(v2,v1,v3)` stitched along the shared
edge `v1-v2`: half-edges e1 (1→2) and e3 (2→1) are twins, all other
half-edges are open.  `closed_edges` holds the canonical (lower-address)
half of the pair, as the `Mesh` constructor stores it. -/
def exM1 : MeshSetRec :=
  { vertex_storage := [⟨0⟩, ⟨0⟩, ⟨0⟩, ⟨0⟩]
    edgeArena :=
      [ { vert := 0, face := 0, next := 1, prev := 2, rev := none, tag := 0 }
      , { vert := 1, face := 0, next := 2, prev := 0, rev := some 3, tag := 0 }
      , { vert := 2, face := 0, next := 0, prev := 1, rev := none, tag := 0 }
      , { vert := 2, face := 1, next := 4, prev := 5, rev := some 1, tag := 0 }
      , { vert := 1, face := 1, next := 5, prev := 3, rev := none, tag := 0 }
      , { vert := 3, face := 1, next := 3, prev := 4, rev := none, tag := 0 } ]
    faceArena :=
      [ { edge := 0, n_edges := 3, mesh := some 0, id := 0, tag := 0 }
      , { edge := 3, n_edges := 3, mesh := some 0, id := 1, tag := 0 } ]
    meshes :=
      [ { faces := [0, 1], open_edges := [0, 2, 4, 5], closed_edges := [1], is_negative := false } ] }

/-- A closed mesh: two triangles `(v0,v1,v2)` and `(v0,v2,v1)` glued along
all three edges; every half-edge has a twin, `open_edges` is empty and
`closed_edges` holds one canonical half-edge per pair. -/
def exM2 : MeshSetRec :=
  { vertex_storage := [⟨0⟩, ⟨0⟩, ⟨0⟩]
    edgeArena :=
      [ { vert := 0, face := 0, next := 1, prev := 2, rev := some 5, tag := 0 }
      , { vert := 1, face := 0, next := 2, prev := 0, rev := some 4, tag := 0 }
      , { vert := 2, face := 0, next := 0, prev := 1, rev := some 3, tag := 0 }
      , { vert := 0, face := 1, next := 4, prev := 5, rev := some 2, tag := 0 }
      , { vert := 2, face := 1, next := 5, prev := 3, rev := some 1, tag := 0 }
      , { vert := 1, face := 1, next := 3, prev := 4, rev := some 0, tag := 0 } ]
    faceArena :=
      [ { edge := 0, n_edges := 3, mesh := some 0, id := 0, tag := 0 }
      , { edge := 3, n_edges := 3, mesh := some 0, id := 1, tag := 0 } ]
    meshes :=
      [ { faces := [0, 1], open_edges := [], closed_edges := [0, 1, 2], is_negative := false } ] }

/-- A single open triangle whose entities carry non-empty tag bits: vertex 0
has tag 3, half-edge 0 has tag 7, the face has tag 5. -/
def exM5 : MeshSetRec :=
  { vertex_storage := [⟨3⟩, ⟨0⟩, ⟨0⟩]
    edgeArena :=
      [ { vert := 0, face := 0, next := 1, prev := 2, rev := none, tag := 7 }
      , { vert := 1, face := 0, next := 2, prev := 0, rev := none, tag := 0 }
      , { vert := 2, face := 0, next := 0, prev := 1, rev := none, tag := 0 } ]
    faceArena := [ { edge := 0, n_edges := 3, mesh := some 0, id := 0, tag := 5 } ]
    meshes :=
      [ { faces := [0], open_edges := [0, 1, 2], closed_edges := [], is_negative := false } ] }

/-- Generic invariant-preservation along `List.foldl`. -/
theorem foldl_inv {α : Type _} {β : Type _} (P : α → Prop) (f : α → β → α) :
    ∀ (l : List β) (init : α), P init → (∀ a b, P a → P (f a b)) → P (l.foldl f init) := by
  intro l
  induction l with
  | nil => intro init h0 _; exact h0
  | cons b t ih => intro init h0 hstep; exact ih (f init b) (hstep init b h0) hstep

/-- Every edge record of the arena carries default-empty tag bits. -/
def edgesTagZero (l : List EdgeRec) : Prop := ∀ e ∈ l, e.tag = 0

/-- Every face record of the arena carries default-empty tag bits. -/
def facesTagZero (l : List FaceRec) : Prop := ∀ f ∈ l, f.tag = 0

theorem getD_edge_tag_zero {l : List EdgeRec} (h : edgesTagZero l) (i : Nat) :
    (l.getD i dEdge).tag = 0 := by
  rw [List.getD_eq_getElem?_getD]
  cases hg : l[i]? with
  | none => rfl
  | some v => exact h v (List.getElem?_mem hg)

theorem getD_face_tag_zero {l : List FaceRec} (h : facesTagZero l) (i : Nat) :
    (l.getD i dFace).tag = 0 := by
  rw [List.getD_eq_getElem?_getD]
  cases hg : l[i]? with
  | none => rfl
  | some v => exact h v (List.getElem?_mem hg)

theorem edgesTagZero_set {l : List EdgeRec} {a : EdgeRec} (hl : edgesTagZero l)
    (ha : a.tag = 0) (i : Nat) : edgesTagZero (l.set i a) := by
  intro e he
  rcases List.mem_or_eq_of_mem_set he with h | h
  · exact hl e h
  · exact h ▸ ha

theorem facesTagZero_set {l : List FaceRec} {a : FaceRec} (hl : facesTagZero l)
    (ha : a.tag = 0) (i : Nat) : facesTagZero (l.set i a) := by
  intro e he
  rcases List.mem_or_eq_of_mem_set he with h | h
  · exact hl e h
  · exact h ▸ ha

/-- All entities allocated so far by a clone have default-empty tags. -/
def cloneTagZero (st : CloneSt) : Prop := facesTagZero st.faces ∧ edgesTagZero st.edges

theorem faceClone_tagZero (ms : MeshSetRec) (fid : Nat) (st : CloneSt)
    (emap : List (Nat × Nat)) (h : cloneTagZero st) :
    cloneTagZero (faceClone ms fid st emap).1 := by
  refine ⟨?_, ?_⟩
  · intro f hf
    rcases List.mem_append.1 hf with hm | hm
    · exact h.1 f hm
    · simp only [List.mem_singleton] at hm
      subst hm; rfl
  · intro e he
    rcases List.mem_append.1 he with hm | hm
    · exact h.2 e hm
    · rcases List.mem_map.1 hm with ⟨k, _, hk⟩
      subst hk; rfl

theorem setRevAt_tagZero {l : List EdgeRec} (h : edgesTagZero l) (i : Nat) (r : Option Nat) :
    edgesTagZero (setRevAt l i r) := by
  apply edgesTagZero_set h
  exact getD_edge_tag_zero h i

theorem meshClone_tagZero (ms : MeshSetRec) (mrec : MeshRec) (st : CloneSt)
    (h : cloneTagZero st) : cloneTagZero (meshClone ms mrec st).1 := by
  simp only [meshClone]
  have h1 : cloneTagZero (mrec.faces.foldl
      (fun acc fid => faceClone ms fid acc.1 acc.2) (st, [])).1 := by
    have := foldl_inv (fun (acc : CloneSt × List (Nat × Nat)) => cloneTagZero acc.1)
      (fun acc fid => faceClone ms fid acc.1 acc.2) mrec.faces (st, []) h
      (fun a b ha => faceClone_tagZero ms b a.1 a.2 ha)
    exact this
  set stm := mrec.faces.foldl (fun acc fid => faceClone ms fid acc.1 acc.2) (st, []) with hstm
  refine ⟨h1.1, ?_⟩
  exact foldl_inv edgesTagZero _ mrec.closed_edges stm.1.edges h1.2
    (fun a b ha => by
      cases hl : List.lookup b stm.2 with
      | none => simpa [hl] using ha
      | some r => simpa [hl] using setRevAt_tagZero ha r _)

theorem setFaceMesh_tagZero {l : List FaceRec} (h : facesTagZero l) (fids : List Nat)
    (mid : Nat) : facesTagZero (setFaceMesh l fids mid) := by
  refine foldl_inv facesTagZero _ fids l h ?_
  intro a b ha
  apply facesTagZero_set ha
  exact getD_face_tag_zero ha b

/-- C5 (amended): `MeshSet::clone` copies `vertex_storage` verbatim — so
vertex tag bits do survive — but every face record and every half-edge it
allocates carries default-empty tag bits: `Face(const Face &)` omits the
`tagable` base from its mem-initializer list and `Face::clone` allocates
fresh edges, so face and half-edge tags are reset, not preserved. -/
theorem clone_tag_behavior (ms : MeshSetRec) :
    (msClone ms).vertex_storage = ms.vertex_storage ∧
    (∀ f ∈ (msClone ms).faceArena, f.tag = 0) ∧
    (∀ e ∈ (msClone ms).edgeArena, e.tag = 0) := by
  refine ⟨rfl, ?_⟩
  have key : cloneTagZero (ms.meshes.foldl
      (fun (acc : CloneSt × List MeshRec) mrec =>
        let res := meshClone ms mrec acc.1
        (⟨res.1.edges, setFaceMesh res.1.faces res.2.faces acc.2.length⟩, acc.2 ++ [res.2]))
      (⟨[], []⟩, [])).1 := by
    refine foldl_inv (fun (acc : CloneSt × List MeshRec) => cloneTagZero acc.1) _ ms.meshes
      (⟨[], []⟩, []) ⟨(fun f hf => nomatch hf), (fun e he => nomatch he)⟩ ?_
    intro a b ha
    have hm := meshClone_tagZero ms b a.1 ha
    exact ⟨setFaceMesh_tagZero hm.1 _ _, hm.2⟩
  exact ⟨fun f hf => key.1 f hf, fun e he => key.2 e he⟩

/-- Witness for the amended C5 theorem at the tagged triangle `exM5`. -/
theorem clone_tag_behavior_witness :
    (faceAt (msClone exM5) 0).tag = 0 ∧ (edgeAt (msClone exM5) 0).tag = 0 :=
  ⟨(clone_tag_behavior exM5).2.1 _ (by decide), (clone_tag_behavior exM5).2.2 _ (by decide)⟩

/-- C5 (counterexample): the claim says every face and half-edge of
`M.clone()` carries the same tag bits as its original.  At `exM5` the
original face has tag 5 and half-edge 0 has tag 7, but their clones carry
tag 0 (vertex tags are preserved, as the storage is copied verbatim). -/
theorem clone_does_not_preserve_tags :
    (faceAt exM5 0).tag = 5 ∧ (faceAt (msClone exM5) 0).tag = 0 ∧
    (edgeAt exM5 0).tag = 7 ∧ (edgeAt (msClone exM5) 0).tag = 0 ∧
    (msClone exM5).vertex_storage = exM5.vertex_storage := by
  decide

/-- C1: the claim says `MeshSet::clone` produces a half-edge graph isomorphic
to the original with `next`/`prev`/`twin`/`origin` preserved, and in
particular `e.rev.rev == e` for every cloned half-edge with a twin.  The
code evaluated at a two-triangle MeshSet refutes this: in the original the
shared pair is mutual (`rev 1 = some 3` and `rev 3 = some 1`), but
`Mesh::clone` writes `rev` only on the clone of the canonical closed edge
(`r_closed_edges.back()->rev = edge_map[closed_edges[i]->rev]`, mesh.hpp
line 788) and never on the twin's clone, so in the clone
`rev 1 = some 3` while `rev 3 = none`: the twin map is not an involution
and the cloned graph is not isomorphic to the original. -/
theorem clone_breaks_rev_involution :
    (edgeAt exM1 1).rev = some 3 ∧ (edgeAt exM1 3).rev = some 1 ∧
    (edgeAt (msClone exM1) 1).rev = some 3 ∧ (edgeAt (msClone exM1) 3).rev = none := by
  decide

/-- C2: the claim says `isClosed()` returns true iff every half-edge
reachable from the mesh's faces has a twin, including for cloned meshes.
The code evaluated at the clone of a closed two-triangle mesh refutes
this: the clone inherits an empty `open_edges` list, so `isClosed()`
returns true, yet half-edge 5 — on the ring of the clone's second face —
has `rev = NULL` because `Mesh::clone` never writes the `rev` field of the
non-canonical half of a closed pair. -/
theorem isClosed_true_with_twinless_edge :
    isClosed ((msClone exM2).meshes.getD 0 dMesh) = true ∧
    (edgeAt (msClone exM2) 5).rev = none ∧
    5 ∈ ringFrom (msClone exM2).edgeArena ((faceAt (msClone exM2) 1).edge) := by
  decide

/-- Possible outcomes of the `MeshSet(points, n_faces, face_indices)`
constructor (mesh.hpp lines 921-944).  `malformedInput` is the error kind
named by the spec; it is listed so that its absence from the code's
behaviour can be stated.  `assertFailed` is the
`CARVE_ASSERT(p == face_indices.size())` check firing, and `outOfBounds`
is a read of `face_indices` or `vertex_storage` outside its range
(undefined behaviour in the C++, modelled as a distinguished outcome).
`ok` carries the vertex-index loop of each face built, in order. -/
inductive CtorResult where
  | ok (faces : List (List Nat)) : CtorResult
  | assertFailed : CtorResult
  | malformedInput : CtorResult
  | outOfBounds : CtorResult
deriving DecidableEq

/-- The inner loop `for (j < N) v.push_back(&vertex_storage[face_indices[p++]])`:
reads `N` indices.  Reading past the end of `face_indices`, or taking the
address of a storage slot outside `[0, npoints)`, is out-of-bounds.
Sequential reads of `face_indices[p++]` are modelled by consuming the list;
the returned remainder is the suffix from the final `p`. -/
def parseLoop (npoints : Nat) : Nat → List Int → Option (List Nat × List Int)
  | 0, rest => some ([], rest)
  | _ + 1, [] => none
  | n + 1, idx :: rest =>
    if 0 ≤ idx ∧ idx < (npoints : Int) then
      match parseLoop npoints n rest with
      | none => none
      | some (l, r) => some (idx.toNat :: l, r)
    else none

/-- The constructor's face loop: for each of the `n_faces` records, read the
count `N = face_indices[p++]` (a negative `int` converted to `size_t` makes
the index loop run past the end of the array: out-of-bounds) and then `N`
indices; after the loop, `CARVE_ASSERT(p == face_indices.size())`.  No
check against `MalformedInput` exists anywhere on this path. -/
def ctorGo (npoints : Nat) : Nat → List Int → List (List Nat) → CtorResult
  | 0, rest, acc => if rest = [] then .ok acc else .assertFailed
  | _ + 1, [], _ => .outOfBounds
  | i + 1, nI :: rest, acc =>
    if nI < 0 then .outOfBounds
    else
      match parseLoop npoints nI.toNat rest with
      | none => .outOfBounds
      | some (l, r) => ctorGo npoints i r (acc ++ [l])

/-- The `MeshSet(points, n_faces, face_indices)` constructor up to the point
where the built faces are handed to `Mesh<3>::create`.  Only the number of
points matters to this phase (coordinates are copied, never inspected). -/
def meshSetCtor (npoints n_faces : Nat) (fi : List Int) : CtorResult :=
  ctorGo npoints n_faces fi []

/-- Modelled from the spec (§6): the face-index encoding is well-formed when
it is exactly `n_faces` records, each a count followed by that many
indices into the point array, with nothing left over — so its length is
`n_faces` plus the sum of the counts. -/
def wellFormedEncoding (npoints : Nat) : Nat → List Int → Prop
  | 0, fi => fi = []
  | n + 1, fi => ∃ (N : Nat) (loop rest : List Int),
      fi = (N : Int) :: (loop ++ rest) ∧ loop.length = N ∧
      (∀ i ∈ loop, 0 ≤ i ∧ i < (npoints : Int)) ∧ wellFormedEncoding npoints n rest

theorem parseLoop_some (npoints : Nat) : ∀ (N : Nat) (fi : List Int) (l : List Nat)
    (r : List Int), parseLoop npoints N fi = some (l, r) →
    ∃ loop : List Int, fi = loop ++ r ∧ loop.length = N ∧
      (∀ i ∈ loop, 0 ≤ i ∧ i < (npoints : Int)) := by
  intro N
  induction N with
  | zero =>
    intro fi l r h
    simp only [parseLoop, Option.some.injEq, Prod.mk.injEq] at h
    exact ⟨[], by simp [h.2], rfl, by simp⟩
  | succ n ih =>
    intro fi l r h
    cases fi with
    | nil => simp [parseLoop] at h
    | cons idx rest =>
      by_cases hb : 0 ≤ idx ∧ idx < (npoints : Int)
      · simp only [parseLoop, if_pos hb] at h
        cases hp : parseLoop npoints n rest with
        | none => rw [hp] at h; cases h
        | some pr =>
          rw [hp] at h
          obtain ⟨l1, r1⟩ := pr
          simp only [Option.some.injEq, Prod.mk.injEq] at h
          obtain ⟨loop1, hfi, hlen, hbd⟩ := ih rest l1 r1 (by rw [hp])
          refine ⟨idx :: loop1, ?_, ?_, ?_⟩
          · simp [hfi, h.2]
          · simp [hlen]
          · intro i hi
            rcases List.mem_cons.1 hi with hh | hh
            · exact hh ▸ hb
            · exact hbd i hh
      · simp [parseLoop, if_neg hb] at h

theorem parseLoop_of_decomp (npoints : Nat) : ∀ (loop rest : List Int),
    (∀ i ∈ loop, 0 ≤ i ∧ i < (npoints : Int)) →
    ∃ l, parseLoop npoints loop.length (loop ++ rest) = some (l, rest) := by
  intro loop
  induction loop with
  | nil => intro rest _; exact ⟨[], rfl⟩
  | cons idx t ih =>
    intro rest hb
    have hbi : 0 ≤ idx ∧ idx < (npoints : Int) := hb idx (List.mem_cons_self idx t)
    obtain ⟨l, hl⟩ := ih rest (fun i hi => hb i (List.mem_cons_of_mem idx hi))
    refine ⟨idx.toNat :: l, ?_⟩
    simp only [List.length_cons, List.cons_append, parseLoop, if_pos hbi, List.append_eq]
    rw [hl]

theorem ctorGo_ne_malformed (npoints : Nat) : ∀ (n : Nat) (fi : List Int)
    (acc : List (List Nat)), ctorGo npoints n fi acc ≠ CtorResult.malformedInput := by
  intro n
  induction n with
  | zero =>
    intro fi acc
    by_cases h : fi = [] <;> simp [ctorGo, h]
  | succ i ih =>
    intro fi acc
    cases fi with
    | nil => simp [ctorGo]
    | cons nI rest =>
      by_cases hneg : nI < 0
      · simp [ctorGo, if_pos hneg]
      · simp only [ctorGo, if_neg hneg]
        cases hp : parseLoop npoints nI.toNat rest with
        | none => simp
        | some pr => exact ih pr.2 (acc ++ [pr.1])

theorem ctorGo_ok_iff (npoints : Nat) : ∀ (n : Nat) (fi : List Int) (acc : List (List Nat)),
    (∃ fs, ctorGo npoints n fi acc = CtorResult.ok fs) ↔ wellFormedEncoding npoints n fi := by
  intro n
  induction n with
  | zero =>
    intro fi acc
    by_cases h : fi = [] <;> simp [ctorGo, h, wellFormedEncoding]
  | succ i ih =>
    intro fi acc
    cases fi with
    | nil =>
      simp only [ctorGo, wellFormedEncoding]
      constructor
      · rintro ⟨fs, hfs⟩; cases hfs
      · rintro ⟨N, loop, rest, hfi, -⟩; cases hfi
    | cons nI rest =>
      by_cases hneg : nI < 0
      · simp only [ctorGo, if_pos hneg, wellFormedEncoding]
        constructor
        · rintro ⟨fs, hfs⟩; cases hfs
        · rintro ⟨N, loop, r, hfi, -⟩
          rw [List.cons.injEq] at hfi
          omega
      · simp only [ctorGo, if_neg hneg, wellFormedEncoding]
        cases hp : parseLoop npoints nI.toNat rest with
        | none =>
          constructor
          · rintro ⟨fs, hfs⟩; cases hfs
          · rintro ⟨N, loop, r, hfi, hlen, hbd, -⟩
            rw [List.cons.injEq] at hfi
            obtain ⟨hnI, hrest⟩ := hfi
            obtain ⟨l2, hl2⟩ := parseLoop_of_decomp npoints loop r hbd
            rw [hlen] at hl2
            have hN : nI.toNat = N := by omega
            rw [← hN, ← hrest] at hl2
            rw [hl2] at hp
            cases hp
        | some pr =>
          obtain ⟨l, r⟩ := pr
          constructor
          · rintro ⟨fs, hfs⟩
            obtain ⟨loop1, hfi, hlen, hbd⟩ := parseLoop_some npoints nI.toNat rest l r hp
            refine ⟨nI.toNat, loop1, r, ?_, hlen, hbd, ?_⟩
            · rw [Int.toNat_of_nonneg (by omega), hfi]
            · exact (ih r (acc ++ [l])).1 ⟨fs, hfs⟩
          · rintro ⟨N, loop, r2, hfi, hlen, hbd, hwf⟩
            rw [List.cons.injEq] at hfi
            obtain ⟨l2, hl2⟩ := parseLoop_of_decomp npoints loop r2 hbd
            rw [hlen] at hl2
            have hN : nI.toNat = N := by omega
            rw [← hN, ← hfi.2] at hl2
            rw [hp] at hl2
            simp only [Option.some.injEq, Prod.mk.injEq] at hl2
            exact (ih r (acc ++ [l])).2 (hl2.2.symm ▸ hwf)

/-- C4 (amended): the constructor performs no input validation and never
raises `MalformedInput`: the only checks on this path are the
`CARVE_ASSERT` on the final cursor position and the (undefined-behaviour)
bounds of the raw array accesses.  It succeeds exactly when the encoding
parses greedily to completion — `n_faces` records, every index inside the
point array, nothing left over (equivalently, the array length equals
`n_faces` plus the sum of the counts).  A face count below 3 is accepted
without complaint. -/
theorem ctor_no_validation (npoints n_faces : Nat) (fi : List Int) :
    meshSetCtor npoints n_faces fi ≠ CtorResult.malformedInput ∧
    ((∃ fs, meshSetCtor npoints n_faces fi = CtorResult.ok fs) ↔
      wellFormedEncoding npoints n_faces fi) :=
  ⟨ctorGo_ne_malformed npoints n_faces fi [], ctorGo_ok_iff npoints n_faces fi []⟩

/-- Witness for the amended C4 theorem: a well-formed triangle encoding is
accepted. -/
theorem ctor_no_validation_witness :
    ∃ fs, meshSetCtor 3 1 [3, 0, 1, 2] = CtorResult.ok fs :=
  (ctor_no_validation 3 1 [3, 0, 1, 2]).2.mpr
    ⟨3, [0, 1, 2], [], by decide, by decide, by decide, rfl⟩

/-- C4 (counterexample): the claim says the constructor fails with a fatal
`MalformedInput` error whenever some face vertex count is less than 3.
The input `points = 3 points`, `n_faces = 1`,
`face_indices = [2, 0, 1]` encodes a two-vertex face (count 2 < 3) with
all indices in range and a consistent length (`1 + 2 = 3`), yet the
constructor raises nothing and succeeds. -/
theorem ctor_accepts_two_vertex_face :
    meshSetCtor 3 1 [2, 0, 1] = CtorResult.ok [[0, 1]] ∧ (2 : Nat) < 3 := by
  decide

/-- `FaceStitcher::build` (mesh.hpp lines 666-690): after
`face_groups.get_index_to_set(index_set, set_size)` it walks the input
faces in order and pushes each into `mesh_faces[index_set[face->id]]`,
then makes one `Mesh` per bucket.  With faces named by their dense ids,
bucket `j` receives exactly the input faces whose component index is `j`,
in input order — which is `ids.filter`.  `index_set` is the id-to-component
map; the disjoint-set structure behind it (carve/djset.hpp, not in src/)
is modelled from the spec: `get_index_to_set` yields for every face id a
component index below the number of components. -/
def buildBuckets (ids : List Nat) (index_set : Nat → Nat) (k : Nat) : List (List Nat) :=
  (List.range k).map (fun j => ids.filter (fun i => index_set i == j))

theorem sum_map_add {α : Type _} (l : List α) (g h : α → Nat) :
    (l.map (fun j => g j + h j)).sum = (l.map g).sum + (l.map h).sum := by
  induction l with
  | nil => rfl
  | cons a t ih => simp only [List.map_cons, List.sum_cons, ih]; omega

theorem sum_indicator_range (k c : Nat) (hc : c < k) :
    ((List.range k).map (fun j => if c = j then 1 else 0)).sum = 1 := by
  induction k with
  | zero => omega
  | succ n ih =>
    rw [List.range_succ, List.map_append, List.sum_append]
    by_cases h : c = n
    · have h0 : ((List.range n).map (fun j => if c = j then (1 : Nat) else 0)).sum = 0 := by
        apply List.sum_eq_zero
        intro x hx
        rcases List.mem_map.1 hx with ⟨j, hj, hxe⟩
        have hjn : j < n := List.mem_range.1 hj
        rw [← hxe, if_neg (by omega)]
      rw [h] at h0
      simp [h0, h]
    · have hc2 : c < n := by omega
      simp [ih hc2, h]

theorem buildBuckets_total (ids : List Nat) (f : Nat → Nat) (k : Nat)
    (h : ∀ i ∈ ids, f i < k) :
    ((buildBuckets ids f k).map List.length).sum = ids.length := by
  induction ids with
  | nil =>
    apply List.sum_eq_zero
    intro x hx
    simp only [buildBuckets, List.map_map, List.mem_map] at hx
    rcases hx with ⟨j, _, hxe⟩
    simp [← hxe]
  | cons a t ih =>
    have step : ∀ j : Nat, ((a :: t).filter (fun i => f i == j)).length
        = (if f a = j then 1 else 0) + (t.filter (fun i => f i == j)).length := by
      intro j
      by_cases hj : f a = j
      · simp [List.filter_cons, hj, Nat.add_comm]
      · simp [List.filter_cons, hj]
    have ht : ∀ i ∈ t, f i < k := fun i hi => h i (List.mem_cons_of_mem a hi)
    have hfa : f a < k := h a (List.mem_cons_self a t)
    calc ((buildBuckets (a :: t) f k).map List.length).sum
        = ((List.range k).map (fun j =>
            (if f a = j then 1 else 0) + (t.filter (fun i => f i == j)).length)).sum := by
          simp only [buildBuckets, List.map_map]
          exact congrArg List.sum (List.map_congr_left (fun j _ => step j))
      _ = ((List.range k).map (fun j => if f a = j then 1 else 0)).sum
          + ((List.range k).map (fun j => (t.filter (fun i => f i == j)).length)).sum :=
          sum_map_add _ _ _
      _ = 1 + ((buildBuckets t f k).map List.length).sum := by
          rw [sum_indicator_range k (f a) hfa]
          simp [buildBuckets, List.map_map]
          rfl
      _ = (a :: t).length := by rw [ih ht]; simp [Nat.add_comm]

theorem buildBuckets_mem (ids : List Nat) (f : Nat → Nat) (k : Nat) (i : Nat) (hi : i ∈ ids)
    (j : Nat) (hj : j < k) : i ∈ (buildBuckets ids f k).getD j [] ↔ f i = j := by
  have hg : (buildBuckets ids f k).getD j [] = ids.filter (fun i => f i == j) := by
    rw [List.getD_eq_getElem?_getD]
    simp [buildBuckets, List.getElem?_map, List.getElem?_range hj]
  rw [hg, List.mem_filter]
  simp [hi]

/-- The generic `Mesh<ndim>::create` template (mesh.hpp lines 798-802),
used for every dimension OTHER than 3 (the full specialization at lines
804-808 dispatches `ndim = 3` to `FaceStitcher::create` instead).  Its
entire body is `meshes.clear();`: whatever faces are handed in, no meshes
are produced.  The result is the produced meshes' face lists. -/
def meshCreateGeneric (_ndim : Nat) (_faceIds : List Nat) : List (List Nat) := []

/-- C3 (counterexample): the claim covers `Mesh::create` for any dimension,
but the generic `Mesh<ndim>::create` template body is just
`meshes.clear()`: at dimension 2 with one input face it produces no
meshes, so the total face count over all produced meshes is 0, not 1 —
the face is silently dropped. -/
theorem generic_create_drops_faces :
    meshCreateGeneric 2 [0] = [] ∧
    ((meshCreateGeneric 2 [0]).map List.length).sum = 0 ∧
    (0 : Nat) ≠ [0].length := by
  decide

/-- C3 (amended): only `Mesh<3>::create` preserves faces.  Its `build` pass
buckets the input faces by component index; provided every component
index returned by the disjoint-set query is below the number of
components (the contract of `djset::get_index_to_set`, modelled from the
spec), the bucket sizes sum to the number of input faces, one mesh is
produced per component, and face `i` lands in bucket `j` exactly when its
component index is `j` — so it is in that one bucket and no other, and no
face is dropped.  The generic `Mesh<ndim>::create` for `ndim ≠ 3` is a
stub that produces no meshes and drops every input face. -/
theorem stitcher_build_preserves_faces (ids : List Nat) (index_set : Nat → Nat) (k : Nat)
    (h : ∀ i ∈ ids, index_set i < k) :
    (((buildBuckets ids index_set k).map List.length).sum = ids.length ∧
     (buildBuckets ids index_set k).length = k ∧
     ∀ i ∈ ids, ∀ j < k,
       (i ∈ (buildBuckets ids index_set k).getD j [] ↔ index_set i = j)) ∧
    (∀ ndim, ndim ≠ 3 → meshCreateGeneric ndim ids = []) :=
  ⟨⟨buildBuckets_total ids index_set k h, by simp [buildBuckets],
    fun i hi j hj => buildBuckets_mem ids index_set k i hi j hj⟩,
   fun _ _ => rfl⟩

/-- Witness for the amended C3 at three faces split into two components. -/
theorem stitcher_build_preserves_faces_witness :
    (((buildBuckets [0, 1, 2] (fun i => i % 2) 2).map List.length).sum = 3 ∧
     (buildBuckets [0, 1, 2] (fun i => i % 2) 2).length = 2 ∧
     ∀ i ∈ [0, 1, 2], ∀ j < 2,
       (i ∈ (buildBuckets [0, 1, 2] (fun i => i % 2) 2).getD j [] ↔ i % 2 = j)) ∧
    meshCreateGeneric 2 [0, 1, 2] = [] := by
  have hmain := stitcher_build_preserves_faces [0, 1, 2] (fun i => i % 2) 2 (by decide)
  exact ⟨by simpa using hmain.1, hmain.2 2 (by decide)⟩

/-- One entry of the complex-edge angular ordering
(`FaceStitcher::EdgeOrderData`, mesh.hpp lines 546-561): the face group
id, the orientation flag, and the (possibly negated) face normal,
represented by an abstract token consumed by the angle oracles. -/
structure EdgeOrderDataM where
  group_id : Nat
  is_reversed : Bool
  face_dir : Nat
deriving DecidableEq

/-- The two angle computations called by the comparator.  Modelled from the
spec: `carve::geom3d::compareAngles` and
`carve::geom3d::antiClockwiseAngle` live in carve/geom3d.hpp, which is not
in src/; they are kept abstract, with angles as ordered integers (the C++
`double` matters to the comparator only through `<`), and directions as
the same tokens as `face_dir`.  The spec's own design note records that
the two methods can disagree (the source prints to stderr when they do). -/
structure AngleOraclesM where
  compareAngles : Nat → Nat → Nat → Nat → Int
  antiClockwiseAngle : Nat → Nat → Nat → Int

/-- `FaceStitcher::EdgeOrderData::Cmp::operator()` (mesh.hpp lines 583-602):
computes `v = compareAngles(edge_dir, base_dir, a.face_dir, b.face_dir)`,
saves it as `v0`, then OVERWRITES `v` with the comparison of
`antiClockwiseAngle(base_dir, a.face_dir, edge_dir)` against
`antiClockwiseAngle(base_dir, b.face_dir, edge_dir)`; `v0` is only used
to print a diagnostic to stderr when the two disagree (no semantic
effect).  The returned ordering then uses `v`: strictly-smaller
anti-clockwise angle first; at equal angles reversed-orientation entries
first, then ascending group id. -/
def edgeOrderCmp (O : AngleOraclesM) (edge_dir base_dir : Nat) (a b : EdgeOrderDataM) : Bool :=
  let _v0 := O.compareAngles edge_dir base_dir a.face_dir b.face_dir
  let da := O.antiClockwiseAngle base_dir a.face_dir edge_dir
  let db := O.antiClockwiseAngle base_dir b.face_dir edge_dir
  let v : Int := if da < db then -1 else if db < da then 1 else 0
  if v < 0 then true
  else if v = 0 then
    if a.is_reversed && !b.is_reversed then true
    else if a.is_reversed == b.is_reversed then decide (a.group_id < b.group_id)
    else false
  else false

/-- An anti-clockwise-angle oracle giving entry token 0 the angle 1 and
every other token the angle 0. -/
def acwDemo : Nat → Nat → Nat → Int := fun _ fd _ => if fd = 0 then 1 else 0

/-- Oracle whose `compareAngles` always reports the first entry's angle
strictly smaller (result -1), disagreeing with `acwDemo`. -/
def oracleA : AngleOraclesM :=
  { compareAngles := fun _ _ _ _ => -1, antiClockwiseAngle := acwDemo }

/-- Oracle whose `compareAngles` always reports the first entry's angle
strictly larger (result 1), same fallback angles as `oracleA`. -/
def oracleB : AngleOraclesM :=
  { compareAngles := fun _ _ _ _ => 1, antiClockwiseAngle := acwDemo }

/-- Forward-orientation entry with face-direction token 0 (angle 1 under
`acwDemo`). -/
def eodA : EdgeOrderDataM := { group_id := 0, is_reversed := false, face_dir := 0 }

/-- Forward-orientation entry with face-direction token 1 (angle 0 under
`acwDemo`). -/
def eodB : EdgeOrderDataM := { group_id := 1, is_reversed := false, face_dir := 1 }

/-- C6 (counterexample): the claim says that whenever `compareAngles`
reports the two angles differ, the comparator's result is determined by
that predicate alone.  Under `oracleA`, `compareAngles` reports the
angles differ with `a` strictly first (result -1), yet the comparator
returns `false` for `(a, b)` and `true` for `(b, a)`: the
`antiClockwiseAngle` fallback — not the predicate — decided the order. -/
theorem cmp_overridden_by_fallback :
    oracleA.compareAngles 0 0 eodA.face_dir eodB.face_dir = -1 ∧
    edgeOrderCmp oracleA 0 0 eodA eodB = false ∧
    edgeOrderCmp oracleA 0 0 eodB eodA = true := by
  decide

/-- C6 (amended): the comparator's result is determined by the
`antiClockwiseAngle` computation alone — `compareAngles` feeds only the
stderr diagnostic, so any two oracles with the same `antiClockwiseAngle`
order identically.  A strictly smaller anti-clockwise angle comes first;
only when the two angles are equal does the tie-break apply: a
reversed-orientation entry precedes a forward-orientation one, and among
entries of equal orientation the smaller face group id precedes. -/
theorem cmp_acw_authoritative (O1 O2 : AngleOraclesM) (ed bd : Nat) (a b : EdgeOrderDataM)
    (hacw : O1.antiClockwiseAngle = O2.antiClockwiseAngle) :
    edgeOrderCmp O1 ed bd a b = edgeOrderCmp O2 ed bd a b ∧
    (O1.antiClockwiseAngle bd a.face_dir ed < O1.antiClockwiseAngle bd b.face_dir ed →
      edgeOrderCmp O1 ed bd a b = true) ∧
    (O1.antiClockwiseAngle bd b.face_dir ed < O1.antiClockwiseAngle bd a.face_dir ed →
      edgeOrderCmp O1 ed bd a b = false) ∧
    (O1.antiClockwiseAngle bd a.face_dir ed = O1.antiClockwiseAngle bd b.face_dir ed →
      edgeOrderCmp O1 ed bd a b =
        (a.is_reversed && !b.is_reversed ||
          (a.is_reversed == b.is_reversed && decide (a.group_id < b.group_id)))) := by
  refine ⟨?_, ?_, ?_, ?_⟩
  · simp only [edgeOrderCmp, hacw]
  · intro hlt
    norm_num [edgeOrderCmp, hlt]
  · intro hgt
    have hn : ¬ (O1.antiClockwiseAngle bd a.face_dir ed
        < O1.antiClockwiseAngle bd b.face_dir ed) := by omega
    norm_num [edgeOrderCmp, hgt, hn]
  · intro heq
    have h1 : ¬ (O1.antiClockwiseAngle bd a.face_dir ed
        < O1.antiClockwiseAngle bd b.face_dir ed) := by omega
    have h2 : ¬ (O1.antiClockwiseAngle bd b.face_dir ed
        < O1.antiClockwiseAngle bd a.face_dir ed) := by omega
    simp only [edgeOrderCmp, if_neg h1, if_neg h2]
    norm_num
    cases ha : a.is_reversed <;> cases hb : b.is_reversed <;> simp

/-- Witness for the amended C6 theorem: two oracles disagreeing in
`compareAngles` but sharing `acwDemo` order the demo entries alike. -/
theorem cmp_acw_authoritative_witness :
    edgeOrderCmp oracleA 0 0 eodA eodB = edgeOrderCmp oracleB 0 0 eodA eodB :=
  (cmp_acw_authoritative oracleA oracleB 0 0 eodA eodB rfl).1

/-- A `MeshSet::FaceIter` position: the current mesh index and the face
index within that mesh.  The iterator's movement depends on the meshset
only through the per-mesh face counts, passed as `sizes`. -/
structure FaceIterM where
  mesh : Nat
  face : Nat
deriving DecidableEq

/-- The loop of `FaceIter::fwd(n)` (mesh.hpp lines 836-844) after
`face += n`: while the face index overflows the current mesh, subtract
that mesh's size and move to the next mesh; past the last mesh, stop at
`(meshes.size(), 0)` (the end iterator).  One fuel unit per iteration;
`mesh` strictly increases, so `sizes.length + 1` units always suffice. -/
def fwdLoop (sizes : List Nat) : Nat → Nat → Nat → Nat × Nat
  | 0, mesh, face => (mesh, face)
  | fuel + 1, mesh, face =>
    if face ≥ sizes.getD mesh 0 then
      if mesh + 1 = sizes.length then (mesh + 1, 0)
      else fwdLoop sizes fuel (mesh + 1) (face - sizes.getD mesh 0)
    else (mesh, face)

/-- `FaceIter::fwd(n)`: guarded by `mesh < meshes.size()`. -/
def fiFwd (sizes : List Nat) (it : FaceIterM) (n : Nat) : FaceIterM :=
  if it.mesh < sizes.length then
    let mf := fwdLoop sizes (sizes.length + 1) it.mesh (it.face + n)
    ⟨mf.1, mf.2⟩
  else it

/-- The loop of `FaceIter::rev(n)` (mesh.hpp lines 846-853): while `n`
exceeds the face index, subtract the face index from `n`, clamp at the
beginning if already in mesh 0, otherwise step to the previous mesh with
face index `size - 1`; finally subtract the remaining `n`.  One fuel unit
per iteration; `mesh` strictly decreases, so `mesh + 1` units suffice. -/
def revLoop (sizes : List Nat) : Nat → Nat → Nat → Nat → Nat × Nat
  | 0, mesh, face, _ => (mesh, face)
  | fuel + 1, mesh, face, n =>
    if n > face then
      if mesh = 0 then (0, 0)
      else revLoop sizes fuel (mesh - 1) (sizes.getD (mesh - 1) 0 - 1) (n - face)
    else (mesh, face - n)

/-- `FaceIter::rev(n)`. -/
def fiRev (sizes : List Nat) (it : FaceIterM) (n : Nat) : FaceIterM :=
  let mf := revLoop sizes (it.mesh + 1) it.mesh it.face n
  ⟨mf.1, mf.2⟩

/-- `FaceIter::adv(n)` (mesh.hpp lines 855-861): dispatch on sign. -/
def fiAdv (sizes : List Nat) (it : FaceIterM) (n : Int) : FaceIterM :=
  if n > 0 then fiFwd sizes it n.toNat
  else if n < 0 then fiRev sizes it (-n).toNat
  else it

/-- `FaceIter::operator-(const FaceIter &)` (mesh.hpp lines 873-891), with
`this = a`, `other = b`: same mesh gives the face-index difference;
otherwise sum the sizes of the meshes strictly between and add the
partial extents on both ends, negated when `a` precedes `b`.  The C++
computes in `size_t` and converts to the signed difference type; the
values involved are small and non-negative, so plain integer arithmetic
is the faithful reading. -/
def fiSub (sizes : List Nat) (a b : FaceIterM) : Int :=
  if a.mesh = b.mesh then (a.face : Int) - (b.face : Int)
  else
    let lo := min a.mesh b.mesh
    let hi := max a.mesh b.mesh
    let m : Int := (((List.range (hi - lo - 1)).map (fun i => sizes.getD (lo + 1 + i) 0)).sum : Nat)
    if a.mesh < b.mesh then
      -(((sizes.getD a.mesh 0 : Int) - (a.face : Int)) + m + (b.face : Int))
    else
      ((sizes.getD b.mesh 0 : Int) - (b.face : Int)) + m + (a.face : Int)

/-- C7: the claim says `FaceIter` satisfies the random-access iterator
laws, in particular `(i + n) - n == i` with decrement inverting increment
across mesh boundaries, and `a + (b - a) == b`.  Evaluating the code on a
meshset with face counts `[2, 1]` refutes both: from `i = (0,1)`,
`i + 1 = (1,0)` and the distance back is 1, but `(i + 1) - 1 = (0,0)`,
one position short of `i`; likewise with `a = (1,0)`, `b = (0,1)`,
`b - a = -1` but `a + (b - a) = (0,0) ≠ b`.  `rev(n)` loses one position
per mesh boundary it crosses; `fwd` and `operator-` are consistent. -/
theorem faceIter_dec_not_inverse_of_inc :
    fiAdv [2, 1] (⟨0, 1⟩ : FaceIterM) 1 = ⟨1, 0⟩ ∧
    fiSub [2, 1] ⟨1, 0⟩ ⟨0, 1⟩ = 1 ∧
    fiAdv [2, 1] (fiAdv [2, 1] (⟨0, 1⟩ : FaceIterM) 1) (-1) = ⟨0, 0⟩ ∧
    (⟨0, 0⟩ : FaceIterM) ≠ ⟨0, 1⟩ ∧
    fiSub [2, 1] ⟨0, 1⟩ ⟨1, 0⟩ = -1 ∧
    fiAdv [2, 1] (⟨1, 0⟩ : FaceIterM) (fiSub [2, 1] ⟨0, 1⟩ ⟨1, 0⟩) = ⟨0, 0⟩ := by
  decide

theorem getD_set_ne {α : Type _} (l : List α) (i j : Nat) (a d : α) (h : i ≠ j) :
    (l.set i a).getD j d = l.getD j d := by
  rw [List.getD_eq_getElem?_getD, List.getD_eq_getElem?_getD, List.getElem?_set_ne h]

theorem getD_set_self {α : Type _} (l : List α) (i : Nat) (a d : α) (h : i < l.length) :
    (l.set i a).getD i d = a := by
  rw [List.getD_eq_getElem?_getD, List.getElem?_set_self h]
  rfl

/-- The state mutated by `FaceStitcher::initEdges` (mesh.hpp lines 606-625):
the edge and face arenas of the input faces, and the `edges` multimap,
which receives one `((v1, v2), e)` entry per half-edge in visit order. -/
structure StitchSt where
  edgeArena : List EdgeRec
  faceArena : List FaceRec
  edgesMap : List ((Nat × Nat) × Nat)
deriving DecidableEq

/-- `e->rev = NULL` on one edge slot. -/
def clearRevAt (arena : List EdgeRec) (i : Nat) : List EdgeRec :=
  arena.set i { arena.getD i dEdge with rev := none }

/-- `if (e->rev) { e->rev->rev = NULL; e->rev = NULL; }` at slot `nxt`. -/
def clearPair (arena : List EdgeRec) (nxt : Nat) : List EdgeRec :=
  match (arena.getD nxt dEdge).rev with
  | none => arena
  | some r => clearRevAt (clearRevAt arena r) nxt

/-- One iteration of the do-while of `initEdges` at edge `e`: record
`edges[(e->v1(), e->v2())].push_back(e)`, advance to `e->next`, and clear
the advanced edge's twin pair if present.  Returns the new state and the
advanced edge. -/
def ringStep (st : StitchSt) (e : Nat) : StitchSt × Nat :=
  ({ edgeArena := clearPair st.edgeArena ((st.edgeArena.getD e dEdge).next)
     faceArena := st.faceArena
     edgesMap := st.edgesMap ++
       [(((st.edgeArena.getD e dEdge).vert,
          (st.edgeArena.getD ((st.edgeArena.getD e dEdge).next) dEdge).vert), e)] },
   (st.edgeArena.getD e dEdge).next)

/-- The do-while of `initEdges` over one face ring, starting at the face's
`edge` and looping until the advanced edge returns to it, with the same
fuel discipline as `ringAux`. -/
def initRingAux (start : Nat) : Nat → StitchSt → Nat → StitchSt
  | 0, st, _ => st
  | fuel + 1, st, e =>
    if (ringStep st e).2 = start then (ringStep st e).1
    else initRingAux start fuel (ringStep st e).1 (ringStep st e).2

/-- `face->id = c` (the only face mutation `initEdges` performs). -/
def faceStep (st : StitchSt) (fid c : Nat) : StitchSt :=
  { st with faceArena := st.faceArena.set fid { st.faceArena.getD fid dFace with id := c } }

/-- `FaceStitcher::initEdges`: for each input face, in order,
`CARVE_ASSERT(face->mesh == NULL)` — modelled from the spec as a fatal
precondition failure (`PreconditionViolated`); `CARVE_ASSERT` lives in
carve/carve.hpp, which is not in src/ — then `face->id = c++` and the
ring walk. -/
def initEdgesGo : List Nat → Nat → StitchSt → Option StitchSt
  | [], _, st => some st
  | fid :: rest, c, st =>
    if (st.faceArena.getD fid dFace).mesh ≠ none then none
    else
      initEdgesGo rest (c + 1)
        (initRingAux ((st.faceArena.getD fid dFace).edge) (st.edgeArena.length + 1)
          (faceStep st fid c) ((st.faceArena.getD fid dFace).edge))

/-- `initEdges(begin, end)` with the id counter starting at 0. -/
def initEdges (st : StitchSt) (fids : List Nat) : Option StitchSt :=
  initEdgesGo fids 0 st

/-- The slot `e` holds no twin pointer. -/
def revNoneAt (a : List EdgeRec) (e : Nat) : Prop := (a.getD e dEdge).rev = none

/-- Two edge arenas of equal length whose `next` pointers agree slot by
slot (so ring walks agree). -/
def sameNext (a b : List EdgeRec) : Prop :=
  a.length = b.length ∧ ∀ j, (a.getD j dEdge).next = (b.getD j dEdge).next

/-- The do-while over the ring returns to its start edge: the last edge
the walk emits has the start as its successor. -/
def ringWellFormed (arena : List EdgeRec) (start : Nat) : Bool :=
  match (ringFrom arena start).getLast? with
  | none => false
  | some x => (arena.getD x dEdge).next == start

theorem sameNext_refl (a : List EdgeRec) : sameNext a a := ⟨rfl, fun _ => rfl⟩

theorem sameNext_trans {a b c : List EdgeRec} (h1 : sameNext a b) (h2 : sameNext b c) :
    sameNext a c := ⟨h1.1.trans h2.1, fun j => (h1.2 j).trans (h2.2 j)⟩

theorem clearRevAt_sameNext (a : List EdgeRec) (i : Nat) : sameNext a (clearRevAt a i) := by
  refine ⟨(List.length_set a i _).symm, fun j => ?_⟩
  by_cases hij : i = j
  · subst hij
    by_cases hl : i < a.length
    · rw [clearRevAt, getD_set_self _ _ _ _ hl]
    · rw [clearRevAt, List.set_eq_of_length_le (by omega)]
  · rw [clearRevAt, getD_set_ne _ _ _ _ _ hij]

theorem clearRevAt_rev_none (a : List EdgeRec) (i : Nat) :
    revNoneAt (clearRevAt a i) i := by
  by_cases hl : i < a.length
  · rw [revNoneAt, clearRevAt, getD_set_self _ _ _ _ hl]
  · rw [revNoneAt, clearRevAt, List.set_eq_of_length_le (by omega),
      List.getD_eq_default _ _ (by omega)]
    rfl

theorem clearRevAt_rev_mono {a : List EdgeRec} {x : Nat} (h : revNoneAt a x) (i : Nat) :
    revNoneAt (clearRevAt a i) x := by
  by_cases hix : i = x
  · subst hix; exact clearRevAt_rev_none a i
  · rw [revNoneAt, clearRevAt, getD_set_ne _ _ _ _ _ hix]; exact h

theorem clearPair_sameNext (a : List EdgeRec) (nxt : Nat) : sameNext a (clearPair a nxt) := by
  unfold clearPair
  cases (a.getD nxt dEdge).rev with
  | none => exact sameNext_refl _
  | some r => exact sameNext_trans (clearRevAt_sameNext _ r) (clearRevAt_sameNext _ _)

theorem clearPair_rev_none (a : List EdgeRec) (nxt : Nat) : revNoneAt (clearPair a nxt) nxt := by
  unfold clearPair
  cases hr : (a.getD nxt dEdge).rev with
  | none => exact hr
  | some r => exact clearRevAt_rev_none _ _

theorem clearPair_rev_mono {a : List EdgeRec} {x : Nat} (h : revNoneAt a x) (nxt : Nat) :
    revNoneAt (clearPair a nxt) x := by
  unfold clearPair
  cases (a.getD nxt dEdge).rev with
  | none => exact h
  | some r => exact clearRevAt_rev_mono (clearRevAt_rev_mono h r) _

theorem ringStep_faceArena (st : StitchSt) (e : Nat) :
    (ringStep st e).1.faceArena = st.faceArena := rfl

theorem ringStep_edgeArena (st : StitchSt) (e : Nat) :
    (ringStep st e).1.edgeArena = clearPair st.edgeArena ((st.edgeArena.getD e dEdge).next) := rfl

theorem ringStep_snd (st : StitchSt) (e : Nat) :
    (ringStep st e).2 = (st.edgeArena.getD e dEdge).next := rfl

theorem ringStep_sameNext (st : StitchSt) (e : Nat) :
    sameNext st.edgeArena (ringStep st e).1.edgeArena := clearPair_sameNext _ _

theorem ringStep_rev_mono {st : StitchSt} {x : Nat} (h : revNoneAt st.edgeArena x) (e : Nat) :
    revNoneAt (ringStep st e).1.edgeArena x := clearPair_rev_mono h _

theorem ringAux_congr {a b : List EdgeRec}
    (h : ∀ j, (a.getD j dEdge).next = (b.getD j dEdge).next) (start : Nat) :
    ∀ (fuel cur : Nat), ringAux a start fuel cur = ringAux b start fuel cur := by
  intro fuel
  induction fuel with
  | zero => intro cur; rfl
  | succ f ih =>
    intro cur
    show (cur :: (if (a.getD cur dEdge).next = start then []
        else ringAux a start f (a.getD cur dEdge).next)) =
      (cur :: (if (b.getD cur dEdge).next = start then []
        else ringAux b start f (b.getD cur dEdge).next))
    rw [h cur]
    by_cases hc : (b.getD cur dEdge).next = start
    · rw [if_pos hc, if_pos hc]
    · rw [if_neg hc, if_neg hc, ih]

theorem ringFrom_congr {a b : List EdgeRec} (h : sameNext a b) (start : Nat) :
    ringFrom a start = ringFrom b start := by
  rw [ringFrom, ringFrom, h.1, ringAux_congr h.2]

theorem ringWellFormed_congr {a b : List EdgeRec} (h : sameNext a b) (s : Nat) :
    ringWellFormed a s = ringWellFormed b s := by
  unfold ringWellFormed
  rw [ringFrom_congr h s]
  cases (ringFrom b s).getLast? with
  | none => rfl
  | some x => simp only [h.2 x]

theorem initRingAux_facesStable (start : Nat) : ∀ (fuel : Nat) (st : StitchSt) (cur : Nat),
    (initRingAux start fuel st cur).faceArena = st.faceArena := by
  intro fuel
  induction fuel with
  | zero => intro st cur; rfl
  | succ f ih =>
    intro st cur
    show (if (ringStep st cur).2 = start then (ringStep st cur).1
      else initRingAux start f (ringStep st cur).1 (ringStep st cur).2).faceArena = st.faceArena
    by_cases hc : (ringStep st cur).2 = start
    · rw [if_pos hc, ringStep_faceArena]
    · rw [if_neg hc, ih, ringStep_faceArena]

theorem initRingAux_sameNext (start : Nat) : ∀ (fuel : Nat) (st : StitchSt) (cur : Nat),
    sameNext st.edgeArena (initRingAux start fuel st cur).edgeArena := by
  intro fuel
  induction fuel with
  | zero => intro st cur; exact sameNext_refl _
  | succ f ih =>
    intro st cur
    show sameNext st.edgeArena (if (ringStep st cur).2 = start then (ringStep st cur).1
      else initRingAux start f (ringStep st cur).1 (ringStep st cur).2).edgeArena
    by_cases hc : (ringStep st cur).2 = start
    · rw [if_pos hc]; exact ringStep_sameNext st cur
    · rw [if_neg hc]
      exact sameNext_trans (ringStep_sameNext st cur) (ih _ _)

theorem initRingAux_revNone_mono (start : Nat) :
    ∀ (fuel : Nat) (st : StitchSt) (cur x : Nat),
    revNoneAt st.edgeArena x → revNoneAt (initRingAux start fuel st cur).edgeArena x := by
  intro fuel
  induction fuel with
  | zero => intro st cur x h; exact h
  | succ f ih =>
    intro st cur x h
    show revNoneAt (if (ringStep st cur).2 = start then (ringStep st cur).1
      else initRingAux start f (ringStep st cur).1 (ringStep st cur).2).edgeArena x
    by_cases hc : (ringStep st cur).2 = start
    · rw [if_pos hc]; exact ringStep_rev_mono h cur
    · rw [if_neg hc]
      exact ih _ _ _ (ringStep_rev_mono h cur)

theorem initRingAux_clears (start : Nat) : ∀ (fuel : Nat) (st : StitchSt) (cur : Nat),
    ∀ x ∈ ringAux st.edgeArena start fuel cur,
      revNoneAt (initRingAux start fuel st cur).edgeArena
        ((st.edgeArena.getD x dEdge).next) := by
  intro fuel
  induction fuel with
  | zero => intro st cur x hx; cases hx
  | succ f ih =>
    intro st cur x hx
    rw [ringAux] at hx
    show revNoneAt (if (ringStep st cur).2 = start then (ringStep st cur).1
      else initRingAux start f (ringStep st cur).1 (ringStep st cur).2).edgeArena
      ((st.edgeArena.getD x dEdge).next)
    rcases List.mem_cons.1 hx with hcur | htail
    · subst hcur
      have hcl : revNoneAt (ringStep st x).1.edgeArena ((st.edgeArena.getD x dEdge).next) :=
        clearPair_rev_none st.edgeArena _
      by_cases hc : (ringStep st x).2 = start
      · rw [if_pos hc]; exact hcl
      · rw [if_neg hc]
        exact initRingAux_revNone_mono start f _ _ _ hcl
    · by_cases hc0 : (st.edgeArena.getD cur dEdge).next = start
      · rw [if_pos hc0] at htail; cases htail
      · rw [if_neg hc0] at htail
        have hc : ¬ (ringStep st cur).2 = start := by rw [ringStep_snd]; exact hc0
        rw [if_neg hc]
        have hsn : sameNext st.edgeArena (ringStep st cur).1.edgeArena :=
          ringStep_sameNext st cur
        have htail2 : x ∈ ringAux (ringStep st cur).1.edgeArena start f ((ringStep st cur).2) := by
          rw [← ringAux_congr hsn.2 start f, ringStep_snd]
          exact htail
        have hres := ih (ringStep st cur).1 (ringStep st cur).2 x htail2
        rw [← hsn.2 x] at hres
        exact hres

theorem mem_ringAux_next (arena : List EdgeRec) (start : Nat) :
    ∀ (fuel cur : Nat), ∀ e ∈ ringAux arena start fuel cur,
      e = cur ∨ ∃ y ∈ ringAux arena start fuel cur, (arena.getD y dEdge).next = e := by
  intro fuel
  induction fuel with
  | zero => intro cur e he; cases he
  | succ f ih =>
    intro cur e he
    rw [ringAux] at he
    rcases List.mem_cons.1 he with h | h
    · exact Or.inl h
    · by_cases hc : (arena.getD cur dEdge).next = start
      · rw [if_pos hc] at h; cases h
      · rw [if_neg hc] at h
        rcases ih ((arena.getD cur dEdge).next) e h with h2 | h2
        · refine Or.inr ⟨cur, ?_, h2.symm⟩
          rw [ringAux]
          exact List.mem_cons_self _ _
        · rcases h2 with ⟨y, hy, hyx⟩
          refine Or.inr ⟨y, ?_, hyx⟩
          rw [ringAux, if_neg hc]
          exact List.mem_cons_of_mem _ hy

theorem ring_mem_exists_pred (arena : List EdgeRec) (start : Nat)
    (hwf : ringWellFormed arena start = true) :
    ∀ x ∈ ringFrom arena start, ∃ y ∈ ringFrom arena start, (arena.getD y dEdge).next = x := by
  intro x hx
  rcases mem_ringAux_next arena start (arena.length + 1) start x hx with h | h
  · rw [h]
    unfold ringWellFormed at hwf
    cases hlast : (ringFrom arena start).getLast? with
    | none => rw [hlast] at hwf; cases hwf
    | some y =>
      rw [hlast] at hwf
      have hby : ((arena.getD y dEdge).next == start) = true := hwf
      exact ⟨y, List.mem_of_mem_getLast? hlast, by simpa using hby⟩
  · exact h

/-- The parts of the stitch state that one `initEdges` face step can only
preserve: face-arena length, `edge` and `mesh` fields of every face slot,
the `next` skeleton of the edge arena, and absence of twin pointers. -/
def stitchStable (st st2 : StitchSt) : Prop :=
  st2.faceArena.length = st.faceArena.length ∧
  sameNext st.edgeArena st2.edgeArena ∧
  (∀ j, (st2.faceArena.getD j dFace).edge = (st.faceArena.getD j dFace).edge) ∧
  (∀ j, (st2.faceArena.getD j dFace).mesh = (st.faceArena.getD j dFace).mesh) ∧
  (∀ x, revNoneAt st.edgeArena x → revNoneAt st2.edgeArena x)

theorem stitchStable_refl (st : StitchSt) : stitchStable st st :=
  ⟨rfl, sameNext_refl _, fun _ => rfl, fun _ => rfl, fun _ h => h⟩

theorem stitchStable_trans {a b c : StitchSt} (h1 : stitchStable a b) (h2 : stitchStable b c) :
    stitchStable a c :=
  ⟨h2.1.trans h1.1, sameNext_trans h1.2.1 h2.2.1,
   fun j => (h2.2.2.1 j).trans (h1.2.2.1 j),
   fun j => (h2.2.2.2.1 j).trans (h1.2.2.2.1 j),
   fun x h => h2.2.2.2.2 x (h1.2.2.2.2 x h)⟩

theorem faceStep_faceArena (st : StitchSt) (fid c : Nat) :
    (faceStep st fid c).faceArena =
      st.faceArena.set fid { st.faceArena.getD fid dFace with id := c } := rfl

theorem faceStep_edgeArena (st : StitchSt) (fid c : Nat) :
    (faceStep st fid c).edgeArena = st.edgeArena := rfl

theorem faceStep_stable (st : StitchSt) (fid c : Nat) : stitchStable st (faceStep st fid c) := by
  refine ⟨List.length_set _ _ _, sameNext_refl _, ?_, ?_, fun x h => h⟩
  · intro j
    rw [faceStep_faceArena]
    by_cases hij : fid = j
    · subst hij
      by_cases hl : fid < st.faceArena.length
      · rw [getD_set_self _ _ _ _ hl]
      · rw [List.set_eq_of_length_le (by omega)]
    · rw [getD_set_ne _ _ _ _ _ hij]
  · intro j
    rw [faceStep_faceArena]
    by_cases hij : fid = j
    · subst hij
      by_cases hl : fid < st.faceArena.length
      · rw [getD_set_self _ _ _ _ hl]
      · rw [List.set_eq_of_length_le (by omega)]
    · rw [getD_set_ne _ _ _ _ _ hij]

theorem initRingAux_stable (start fuel : Nat) (st : StitchSt) (cur : Nat) :
    stitchStable st (initRingAux start fuel st cur) := by
  refine ⟨?_, initRingAux_sameNext start fuel st cur, ?_, ?_,
    fun x h => initRingAux_revNone_mono start fuel st cur x h⟩
  · rw [initRingAux_facesStable]
  · intro j; rw [initRingAux_facesStable]
  · intro j; rw [initRingAux_facesStable]

theorem initEdgesGo_cons (fid : Nat) (rest : List Nat) (c : Nat) (st : StitchSt) :
    initEdgesGo (fid :: rest) c st =
      if (st.faceArena.getD fid dFace).mesh ≠ none then none
      else initEdgesGo rest (c + 1)
        (initRingAux ((st.faceArena.getD fid dFace).edge) (st.edgeArena.length + 1)
          (faceStep st fid c) ((st.faceArena.getD fid dFace).edge)) := rfl

theorem initEdgesGo_none_iff : ∀ (fids : List Nat) (c : Nat) (st : StitchSt),
    (initEdgesGo fids c st = none ↔
      ∃ fid ∈ fids, (st.faceArena.getD fid dFace).mesh ≠ none) := by
  intro fids
  induction fids with
  | nil =>
    intro c st
    simp [initEdgesGo]
  | cons fid rest ih =>
    intro c st
    rw [initEdgesGo_cons]
    by_cases hm : (st.faceArena.getD fid dFace).mesh ≠ none
    · rw [if_pos hm]
      exact iff_of_true rfl ⟨fid, List.mem_cons_self _ _, hm⟩
    · rw [if_neg hm]
      have hmn : (st.faceArena.getD fid dFace).mesh = none := not_not.mp hm
      have hstab : stitchStable st
          (initRingAux ((st.faceArena.getD fid dFace).edge) (st.edgeArena.length + 1)
            (faceStep st fid c) ((st.faceArena.getD fid dFace).edge)) :=
        stitchStable_trans (faceStep_stable st fid c) (initRingAux_stable _ _ _ _)
      rw [ih (c + 1) _]
      constructor
      · rintro ⟨g, hg, hgm⟩
        refine ⟨g, List.mem_cons_of_mem _ hg, ?_⟩
        rw [← hstab.2.2.2.1 g]
        exact hgm
      · rintro ⟨g, hg, hgm⟩
        rcases List.mem_cons.1 hg with hh | hh
        · subst hh; exact absurd hmn hgm
        · refine ⟨g, hh, ?_⟩
          rw [hstab.2.2.2.1 g]
          exact hgm

theorem initEdgesGo_stable : ∀ (fids : List Nat) (c : Nat) (st st1 : StitchSt),
    initEdgesGo fids c st = some st1 →
    stitchStable st st1 ∧
    (∀ j, j ∉ fids → (st1.faceArena.getD j dFace).id = (st.faceArena.getD j dFace).id) := by
  intro fids
  induction fids with
  | nil =>
    intro c st st1 h
    cases h
    exact ⟨stitchStable_refl _, fun j _ => rfl⟩
  | cons fid rest ih =>
    intro c st st1 h
    rw [initEdgesGo_cons] at h
    by_cases hm : (st.faceArena.getD fid dFace).mesh ≠ none
    · rw [if_pos hm] at h; cases h
    · rw [if_neg hm] at h
      set st2 := initRingAux ((st.faceArena.getD fid dFace).edge) (st.edgeArena.length + 1)
        (faceStep st fid c) ((st.faceArena.getD fid dFace).edge) with hst2
      have hstep : stitchStable st st2 :=
        stitchStable_trans (faceStep_stable st fid c) (initRingAux_stable _ _ _ _)
      obtain ⟨hs, hid⟩ := ih (c + 1) st2 st1 h
      refine ⟨stitchStable_trans hstep hs, ?_⟩
      intro j hj
      have hj1 : fid ≠ j := fun hh => hj (hh ▸ List.mem_cons_self _ _)
      have hj2 : j ∉ rest := fun hh => hj (List.mem_cons_of_mem _ hh)
      rw [hid j hj2, hst2, initRingAux_facesStable, faceStep_faceArena,
        getD_set_ne _ _ _ _ _ hj1]

theorem initEdgesGo_ids : ∀ (fids : List Nat) (c : Nat) (st st1 : StitchSt),
    fids.Nodup → (∀ g ∈ fids, g < st.faceArena.length) →
    initEdgesGo fids c st = some st1 →
    ∀ k, k < fids.length → (st1.faceArena.getD (fids.getD k 0) dFace).id = c + k := by
  intro fids
  induction fids with
  | nil =>
    intro c st st1 _ _ _ k hk
    exact absurd hk (by simp)
  | cons fid rest ih =>
    intro c st st1 hnd hlen h k hk
    rw [initEdgesGo_cons] at h
    by_cases hm : (st.faceArena.getD fid dFace).mesh ≠ none
    · rw [if_pos hm] at h; cases h
    · rw [if_neg hm] at h
      set st2 := initRingAux ((st.faceArena.getD fid dFace).edge) (st.edgeArena.length + 1)
        (faceStep st fid c) ((st.faceArena.getD fid dFace).edge) with hst2
      have hstep : stitchStable st st2 :=
        stitchStable_trans (faceStep_stable st fid c) (initRingAux_stable _ _ _ _)
      cases k with
      | zero =>
        have hnotrest : fid ∉ rest := (List.nodup_cons.1 hnd).1
        have hid := (initEdgesGo_stable rest (c + 1) st2 st1 h).2 fid hnotrest
        rw [List.getD_cons_zero, hid, hst2, initRingAux_facesStable, faceStep_faceArena,
          getD_set_self _ _ _ _ (hlen fid (List.mem_cons_self _ _))]
        rfl
      | succ k2 =>
        have hnd2 := (List.nodup_cons.1 hnd).2
        have hlen2 : ∀ g ∈ rest, g < st2.faceArena.length := by
          intro g hg
          have h1 := hlen g (List.mem_cons_of_mem _ hg)
          have h2 : st2.faceArena.length = st.faceArena.length := hstep.1
          omega
        have hk2 : k2 < rest.length := by
          simp only [List.length_cons] at hk
          omega
        have hres := ih (c + 1) st2 st1 hnd2 hlen2 h k2 hk2
        rw [List.getD_cons_succ, hres]
        omega

theorem initEdgesGo_clears : ∀ (fids : List Nat) (c : Nat) (st st1 : StitchSt),
    initEdgesGo fids c st = some st1 →
    ∀ g ∈ fids,
      ringWellFormed st.edgeArena ((st.faceArena.getD g dFace).edge) = true →
      ∀ x ∈ ringFrom st1.edgeArena ((st1.faceArena.getD g dFace).edge),
        revNoneAt st1.edgeArena x := by
  intro fids
  induction fids with
  | nil => intro c st st1 _ g hg; cases hg
  | cons fid0 rest ih =>
    intro c st st1 h g hg hwf x hx
    rw [initEdgesGo_cons] at h
    by_cases hm : (st.faceArena.getD fid0 dFace).mesh ≠ none
    · rw [if_pos hm] at h; cases h
    · rw [if_neg hm] at h
      set e0 := (st.faceArena.getD fid0 dFace).edge with he0
      set st2 := initRingAux e0 (st.edgeArena.length + 1) (faceStep st fid0 c) e0 with hst2
      have hstA : stitchStable st st2 :=
        stitchStable_trans (faceStep_stable st fid0 c) (initRingAux_stable _ _ _ _)
      have hstB : stitchStable st2 st1 := (initEdgesGo_stable rest (c + 1) st2 st1 h).1
      rcases List.mem_cons.1 hg with hgf | hgr
      · subst hgf
        have hedge1 : (st1.faceArena.getD g dFace).edge = e0 := by
          rw [hstB.2.2.1 g, hstA.2.2.1 g]
        rw [hedge1] at hx
        have hsn : sameNext st.edgeArena st1.edgeArena :=
          sameNext_trans hstA.2.1 hstB.2.1
        have hring : ringFrom st1.edgeArena e0 = ringFrom st.edgeArena e0 :=
          (ringFrom_congr hsn e0).symm
        rw [hring] at hx
        obtain ⟨y, hy, hyx⟩ := ring_mem_exists_pred st.edgeArena e0 hwf x hx
        have hyring : y ∈ ringAux (faceStep st g c).edgeArena e0
            (st.edgeArena.length + 1) e0 := by
          rw [faceStep_edgeArena]
          exact hy
        have hcl := initRingAux_clears e0 (st.edgeArena.length + 1)
          (faceStep st g c) e0 y hyring
        rw [faceStep_edgeArena] at hcl
        rw [hyx] at hcl
        exact hstB.2.2.2.2 x hcl
      · have hwf2 : ringWellFormed st2.edgeArena ((st2.faceArena.getD g dFace).edge) = true := by
          rw [hstA.2.2.1 g, ← ringWellFormed_congr hstA.2.1]
          exact hwf
        exact ih (c + 1) st2 st1 h g hgr hwf2 x hx

/-- C9: `Mesh<3>::create`'s initialization (`FaceStitcher::initEdges`)
fails with the precondition assertion exactly when some input face already
has a non-null `mesh` back-pointer (the assertion checks nothing else, and
nothing on this path modifies `mesh` fields); on success it assigns the
dense ids `0..n-1` to the input faces in input order, and every half-edge
on every input face's ring ends with `rev == NULL` — the walk clears each
pre-existing twin pair after recording the edge in the `edges` map.
Hypotheses: the input faces are distinct objects inside the face arena,
and each face's ring closes (the C++ do-while would not terminate
otherwise). -/
theorem initEdges_spec (st : StitchSt) (fids : List Nat) (hnd : fids.Nodup)
    (hlen : ∀ g ∈ fids, g < st.faceArena.length) :
    (initEdges st fids = none ↔
      ∃ fid ∈ fids, (st.faceArena.getD fid dFace).mesh ≠ none) ∧
    (∀ st1, initEdges st fids = some st1 →
      (∀ k, k < fids.length → (st1.faceArena.getD (fids.getD k 0) dFace).id = k) ∧
      (∀ g ∈ fids,
        ringWellFormed st.edgeArena ((st.faceArena.getD g dFace).edge) = true →
        ∀ x ∈ ringFrom st1.edgeArena ((st1.faceArena.getD g dFace).edge),
          revNoneAt st1.edgeArena x)) := by
  refine ⟨initEdgesGo_none_iff fids 0 st, ?_⟩
  intro st1 h
  constructor
  · intro k hk
    have := initEdgesGo_ids fids 0 st st1 hnd hlen h k hk
    simpa using this
  · exact initEdgesGo_clears fids 0 st st1 h

/-- A single triangle whose edges still carry stale twin pointers from an
earlier stitching (`rev 0 = some 1`, `rev 1 = some 0`), with a stale face
id 99 and no owning mesh. -/
def st9 : StitchSt :=
  { edgeArena :=
      [ { vert := 0, face := 0, next := 1, prev := 2, rev := some 1, tag := 0 }
      , { vert := 1, face := 0, next := 2, prev := 0, rev := some 0, tag := 0 }
      , { vert := 2, face := 0, next := 0, prev := 1, rev := none, tag := 0 } ]
    faceArena := [ { edge := 0, n_edges := 3, mesh := none, id := 99, tag := 0 } ]
    edgesMap := [] }

/-- The state `initEdges` produces on `st9`. -/
def st9r : StitchSt := (initEdges st9 [0]).getD st9

/-- Witness for C9 at `st9`: initialization succeeds (no face is owned),
the face receives id 0, and all three ring edges end with `rev = NULL`. -/
theorem initEdges_spec_witness :
    (st9r.faceArena.getD 0 dFace).id = 0 ∧
    revNoneAt st9r.edgeArena 0 ∧ revNoneAt st9r.edgeArena 1 ∧ revNoneAt st9r.edgeArena 2 := by
  have h := (initEdges_spec st9 [0] (by decide) (by decide)).2 st9r (by decide)
  refine ⟨by simpa using h.1 0 (by decide), ?_, ?_, ?_⟩
  · exact h.2 0 (by decide) (by decide) 0 (by decide)
  · exact h.2 0 (by decide) (by decide) 1 (by decide)
  · exact h.2 0 (by decide) (by decide) 2 (by decide)


/-- The half-edge connectivity of one mesh, abstracted for the perimeter
traversal `Edge::perimNext` / `Edge::perimPrev` (mesh.hpp lines 349-365):
`n` half-edges with ring neighbours `next`/`prev`, twin `rev` (`none` =
NULL) and origin vertex `vert`. -/
structure HEGraph (n : Nat) where
  next : Fin n → Fin n
  prev : Fin n → Fin n
  rev : Fin n → Option (Fin n)
  vert : Fin n → Nat

/-- The loop `while (e->rev) { e = e->rev->next; }` with fuel (the C++ has
none; the theorem below proves the fuel `n + 1` is never exhausted under
the mesh invariants). -/
def perimNextAux {n : Nat} (G : HEGraph n) : Nat → Fin n → Option (Fin n)
  | 0, _ => none
  | fuel + 1, e =>
    match G.rev e with
    | none => some e
    | some r => perimNextAux G fuel (G.next r)

/-- `Edge::perimNext()`: `if (rev) return NULL;` then walk
`e = next; while (e->rev) e = e->rev->next; return e;`. -/
def perimNext {n : Nat} (G : HEGraph n) (e : Fin n) : Option (Fin n) :=
  match G.rev e with
  | some _ => none
  | none => perimNextAux G (n + 1) (G.next e)

/-- The loop `while (e->rev) { e = e->rev->prev; }` with fuel. -/
def perimPrevAux {n : Nat} (G : HEGraph n) : Nat → Fin n → Option (Fin n)
  | 0, _ => none
  | fuel + 1, e =>
    match G.rev e with
    | none => some e
    | some r => perimPrevAux G fuel (G.prev r)

/-- `Edge::perimPrev()`: `if (rev) return NULL;` then walk
`e = prev; while (e->rev) e = e->rev->prev; return e;`. -/
def perimPrev {n : Nat} (G : HEGraph n) (e : Fin n) : Option (Fin n) :=
  match G.rev e with
  | some _ => none
  | none => perimPrevAux G (n + 1) (G.prev e)

/-- One totalized step of the `perimNext` walk: identity on open edges. -/
def gstep {n : Nat} (G : HEGraph n) (x : Fin n) : Fin n :=
  match G.rev x with
  | none => x
  | some r => G.next r

/-- The half-edge invariants of the data model (§3 of the spec, and the
comments on `Edge` in mesh.hpp): `prev`/`next` are mutually inverse on the
rings, `rev` is an involution where present, and a twin's successor has
the original's origin (`self.origin == twin.next.origin`). -/
def HEInv {n : Nat} (G : HEGraph n) : Prop :=
  (∀ x, G.prev (G.next x) = x) ∧ (∀ x, G.next (G.prev x) = x) ∧
  (∀ x r, G.rev x = some r → G.rev r = some x) ∧
  (∀ x r, G.rev x = some r → G.vert (G.next r) = G.vert x)

theorem gstep_some {n : Nat} {G : HEGraph n} {x r : Fin n} (h : G.rev x = some r) :
    gstep G x = G.next r := by
  unfold gstep
  rw [h]

theorem perimNextAux_succ {n : Nat} (G : HEGraph n) (f : Nat) (x : Fin n) :
    perimNextAux G (f + 1) x =
      match G.rev x with
      | none => some x
      | some r => perimNextAux G f (G.next r) := rfl

theorem perimPrevAux_succ {n : Nat} (G : HEGraph n) (f : Nat) (x : Fin n) :
    perimPrevAux G (f + 1) x =
      match G.rev x with
      | none => some x
      | some r => perimPrevAux G f (G.prev r) := rfl

theorem perimNext_eq {n : Nat} (G : HEGraph n) (e : Fin n) :
    perimNext G e =
      match G.rev e with
      | some _ => none
      | none => perimNextAux G (n + 1) (G.next e) := rfl

theorem perimPrev_eq {n : Nat} (G : HEGraph n) (e : Fin n) :
    perimPrev G e =
      match G.rev e with
      | some _ => none
      | none => perimPrevAux G (n + 1) (G.prev e) := rfl

theorem perimNextAux_none {n : Nat} (G : HEGraph n) :
    ∀ (fuel : Nat) (x : Fin n), perimNextAux G fuel x = none →
      ∀ k, k < fuel → (G.rev ((gstep G)^[k] x)).isSome := by
  intro fuel
  induction fuel with
  | zero => intro x _ k hk; omega
  | succ f ih =>
    intro x h k hk
    cases hr : G.rev x with
    | none =>
      simp only [perimNextAux_succ, hr] at h
      cases h
    | some r =>
      simp only [perimNextAux_succ, hr] at h
      cases k with
      | zero => simp [hr]
      | succ k2 =>
        rw [Function.iterate_succ_apply, gstep_some hr]
        exact ih (G.next r) h k2 (by omega)

theorem perimNextAux_some {n : Nat} (G : HEGraph n) :
    ∀ (fuel : Nat) (x r : Fin n), perimNextAux G fuel x = some r →
      ∃ k, k < fuel ∧ r = (gstep G)^[k] x ∧ G.rev ((gstep G)^[k] x) = none ∧
        ∀ i, i < k → (G.rev ((gstep G)^[i] x)).isSome := by
  intro fuel
  induction fuel with
  | zero => intro x r h; cases h
  | succ f ih =>
    intro x r h
    cases hr : G.rev x with
    | none =>
      simp only [perimNextAux_succ, hr, Option.some.injEq] at h
      refine ⟨0, by omega, ?_, ?_, ?_⟩
      · simp [h]
      · simpa using hr
      · intro i hi; omega
    | some rr =>
      simp only [perimNextAux_succ, hr] at h
      obtain ⟨k, hk, hrk, hnone, hall⟩ := ih (G.next rr) r h
      refine ⟨k + 1, by omega, ?_, ?_, ?_⟩
      · rw [Function.iterate_succ_apply, gstep_some hr]; exact hrk
      · rw [Function.iterate_succ_apply, gstep_some hr]; exact hnone
      · intro i hi
        cases i with
        | zero => simp [hr]
        | succ i2 =>
          rw [Function.iterate_succ_apply, gstep_some hr]
          exact hall i2 (by omega)

theorem gstep_vert {n : Nat} {G : HEGraph n} (hinv : HEInv G) {x : Fin n}
    (h : (G.rev x).isSome) : G.vert (gstep G x) = G.vert x := by
  cases hr : G.rev x with
  | none => rw [hr] at h; simp at h
  | some r =>
    rw [gstep_some hr]
    exact hinv.2.2.2 x r hr

theorem chain_vert {n : Nat} {G : HEGraph n} (hinv : HEInv G) (x : Fin n) :
    ∀ k, (∀ i, i < k → (G.rev ((gstep G)^[i] x)).isSome) →
      G.vert ((gstep G)^[k] x) = G.vert x := by
  intro k
  induction k with
  | zero => intro _; rfl
  | succ k2 ih =>
    intro hall
    rw [Function.iterate_succ_apply',
      gstep_vert hinv (hall k2 (by omega))]
    exact ih (fun i hi => hall i (by omega))

theorem gstep_inj {n : Nat} {G : HEGraph n} (hinv : HEInv G) {a b : Fin n}
    (ha : (G.rev a).isSome) (hb : (G.rev b).isSome) (h : gstep G a = gstep G b) :
    a = b := by
  cases hra : G.rev a with
  | none => rw [hra] at ha; simp at ha
  | some ra =>
    cases hrb : G.rev b with
    | none => rw [hrb] at hb; simp at hb
    | some rb =>
      rw [gstep_some hra, gstep_some hrb] at h
      have hab : ra = rb := by
        have h2 := congrArg G.prev h
        rwa [hinv.1, hinv.1] at h2
      have h2 : G.rev ra = some a := hinv.2.2.1 a ra hra
      have h3 : G.rev rb = some b := hinv.2.2.1 b rb hrb
      rw [hab, h3] at h2
      exact (Option.some.inj h2).symm

theorem chain_peel {n : Nat} {G : HEGraph n} (hinv : HEInv G) (x : Fin n) :
    ∀ (i j : Nat), i ≤ j →
      (∀ k, k < j → (G.rev ((gstep G)^[k] x)).isSome) →
      (gstep G)^[i] x = (gstep G)^[j] x →
      x = (gstep G)^[j - i] x := by
  intro i
  induction i with
  | zero =>
    intro j _ _ h
    simpa using h
  | succ i2 ih =>
    intro j hij hall h
    cases j with
    | zero => omega
    | succ j2 =>
      rw [Function.iterate_succ_apply', Function.iterate_succ_apply'] at h
      have h2 : (gstep G)^[i2] x = (gstep G)^[j2] x :=
        gstep_inj hinv (hall i2 (by omega)) (hall j2 (by omega)) h
      have h3 := ih j2 (by omega) (fun k hk => hall k (by omega)) h2
      simpa using h3

theorem perimNextAux_terminates {n : Nat} {G : HEGraph n} (hinv : HEInv G) (e : Fin n)
    (he : G.rev e = none) : perimNextAux G (n + 1) (G.next e) ≠ none := by
  intro hnone
  have hall : ∀ k, k < n + 1 → (G.rev ((gstep G)^[k] (G.next e))).isSome :=
    perimNextAux_none G (n + 1) (G.next e) hnone
  obtain ⟨a, b, hab, hfab⟩ := Fintype.exists_ne_map_eq_of_card_lt
    (fun k : Fin (n + 1) => (gstep G)^[k.val] (G.next e)) (by simp)
  have hcol : ∃ i j : Nat, i < j ∧ j ≤ n ∧
      (gstep G)^[i] (G.next e) = (gstep G)^[j] (G.next e) := by
    rcases Nat.lt_trichotomy a.val b.val with hlt | heq | hgt
    · exact ⟨a.val, b.val, hlt, by omega, hfab⟩
    · exact absurd (Fin.ext heq) hab
    · exact ⟨b.val, a.val, hgt, by omega, hfab.symm⟩
  obtain ⟨i, j, hij, hjn, hcoll⟩ := hcol
  have hx0 := chain_peel hinv (G.next e) i j (by omega)
    (fun k hk => hall k (by omega)) hcoll
  set d := j - i with hd
  have hd1 : 1 ≤ d ∧ d ≤ n := by omega
  rw [show d = (d - 1) + 1 by omega, Function.iterate_succ_apply'] at hx0
  have hw : (G.rev ((gstep G)^[d - 1] (G.next e))).isSome := hall (d - 1) (by omega)
  cases hrw : G.rev ((gstep G)^[d - 1] (G.next e)) with
  | none => rw [hrw] at hw; simp at hw
  | some w2 =>
    rw [gstep_some hrw] at hx0
    have hwe : e = w2 := by
      have h2 := congrArg G.prev hx0
      rwa [hinv.1, hinv.1] at h2
    have hinvol := hinv.2.2.1 _ w2 hrw
    rw [← hwe, he] at hinvol
    cases hinvol

theorem perimPrev_shift {n : Nat} {G : HEGraph n} (hinv : HEInv G) :
    ∀ (k : Nat) (x : Fin n), (∀ i, i < k → (G.rev ((gstep G)^[i] x)).isSome) →
      ∀ m, perimPrevAux G (k + m + 1) (G.prev ((gstep G)^[k] x)) =
        perimPrevAux G (m + 1) (G.prev x) := by
  intro k
  induction k with
  | zero =>
    intro x _ m
    simp
  | succ k2 ih =>
    intro x hall m
    have h0 := hall 0 (by omega)
    cases hr : G.rev x with
    | none =>
      rw [Function.iterate_zero_apply, hr] at h0
      simp at h0
    | some r =>
      have hgx : gstep G x = G.next r := gstep_some hr
      have hiter : (gstep G)^[k2 + 1] x = (gstep G)^[k2] (G.next r) := by
        rw [Function.iterate_succ_apply, hgx]
      have hall2 : ∀ i, i < k2 → (G.rev ((gstep G)^[i] (G.next r))).isSome := by
        intro i hi
        have h3 := hall (i + 1) (by omega)
        rwa [Function.iterate_succ_apply, hgx] at h3
      have hih := ih (G.next r) hall2 (m + 1)
      have hfuel : (k2 + 1) + m + 1 = k2 + (m + 1) + 1 := by omega
      rw [hiter, hfuel, hih, hinv.1 r]
      have hrr : G.rev r = some x := hinv.2.2.1 x r hr
      rw [perimPrevAux_succ]
      simp only [hrr]

/-- C10: for a half-edge structure satisfying the ring invariants
(`prev`/`next` mutually inverse) and the twin invariants (involution,
`self.origin == twin.next.origin`): `perimNext` and `perimPrev` return
NULL on every half-edge that has a twin; and on every open half-edge `e`,
the `perimNext` walk terminates and returns an open half-edge whose origin
is `e`'s head vertex `e.next.origin` — the successor boundary edge along
the perimeter — and `perimPrev` of that edge returns `e` again. -/
theorem perim_spec {n : Nat} (G : HEGraph n) (hinv : HEInv G) (e : Fin n) :
    ((G.rev e).isSome → perimNext G e = none ∧ perimPrev G e = none) ∧
    (G.rev e = none →
      ∃ r, perimNext G e = some r ∧ G.rev r = none ∧
        G.vert r = G.vert (G.next e) ∧ perimPrev G r = some e) := by
  constructor
  · intro hs
    cases hr : G.rev e with
    | none => rw [hr] at hs; simp at hs
    | some rr =>
      constructor
      · rw [perimNext_eq]; simp only [hr]
      · rw [perimPrev_eq]; simp only [hr]
  · intro hnone
    have hterm := perimNextAux_terminates hinv e hnone
    cases haux : perimNextAux G (n + 1) (G.next e) with
    | none => exact absurd haux hterm
    | some r =>
      obtain ⟨k, hk, hrk, hrevk, halli⟩ := perimNextAux_some G (n + 1) (G.next e) r haux
      have hrevr : G.rev r = none := by rw [hrk]; exact hrevk
      refine ⟨r, ?_, hrevr, ?_, ?_⟩
      · rw [perimNext_eq]; simp only [hnone]; exact haux
      · rw [hrk]
        exact chain_vert hinv (G.next e) k halli
      · rw [perimPrev_eq]
        simp only [hrevr]
        have hfuel : n + 1 = k + (n - k) + 1 := by omega
        rw [hrk, hfuel, perimPrev_shift hinv k (G.next e) halli (n - k), hinv.1 e,
          perimPrevAux_succ]
        simp only [hnone]

/-- A single open triangle: three half-edges in a ring, no twins. -/
def triGraph : HEGraph 3 :=
  { next := fun i => i + 1
    prev := fun i => i + 2
    rev := fun _ => none
    vert := fun i => i.val }

/-- Witness for C10 at the open triangle, edge 0. -/
theorem perim_spec_witness :
    ((triGraph.rev 0).isSome → perimNext triGraph 0 = none ∧ perimPrev triGraph 0 = none) ∧
    (triGraph.rev 0 = none →
      ∃ r, perimNext triGraph 0 = some r ∧ triGraph.rev r = none ∧
        triGraph.vert r = triGraph.vert (triGraph.next 0) ∧ perimPrev triGraph r = some 0) :=
  perim_spec triGraph ⟨by decide, by decide, by decide, by decide⟩ 0

end CarveMesh
